import Mathlib

/-!
Verification of the gap-insertion core `insert_gaps_in_path` of
`vectorize_fast.py`.  The curve capability (an `svgpathtools` path) is
modelled by the abstract interface `CurveOps`; the function itself is a
direct shallow embedding, with `Option` modelling a raised exception in
`cropped` and nontermination of the placement loop.
-/

/-- Clamp a parameter to the unit interval, as the source computes
`t = max(0.0, min(1.0, t))` before cropping. -/
def clamp01 (x : ℚ) : ℚ := max 0 (min 1 x)

/-- Interface of the curve capability used by `insert_gaps_in_path`:
`numPrims` models `len(path)`, `length` models `path.length()`, and
`cropped` models `path.cropped(t0, t1)`, with `none` standing for a
raised exception. -/
structure CurveOps (C : Type) where
  numPrims : C → Nat
  length : C → ℚ
  cropped : C → ℚ → ℚ → Option C

/-- Fuel-indexed form of the gap placement loop
`pos = gap_spacing; while pos < total_length: gap_positions.append((pos, min(pos + gap_length, total_length))); pos += gap_spacing`
of `insert_gaps_in_path`.  The result is `none` when the fuel runs out
before the loop condition fails; `none` for every fuel models divergence. -/
def gapLoopFuel (total_length gap_length gap_spacing : ℚ) :
    Nat → ℚ → Option (List (ℚ × ℚ))
  | 0, pos => if pos < total_length then none else some []
  | fuel + 1, pos =>
    if pos < total_length then
      (gapLoopFuel total_length gap_length gap_spacing fuel (pos + gap_spacing)).map
        (fun rest => (pos, min (pos + gap_length) total_length) :: rest)
    else some []

/-- Fuel that suffices for the gap placement loop whenever `0 < gap_spacing`:
an executable upper bound on the number of remaining iterations. -/
def gapFuel (total_length gap_spacing pos : ℚ) : Nat :=
  ((total_length - pos) / gap_spacing).num.toNat + 1

/-- The recorded gap intervals of `insert_gaps_in_path`: one centered gap
(`mid = total_length / 2`, start `max(0, mid - gap_length/2)`, end
`min(total_length, mid + gap_length/2)`, kept only when it does not consume
the whole path) when `total_length < gap_spacing`, otherwise the periodic
gaps of the loop.  `none` models nontermination of the loop. -/
def gap_positions (total_length gap_length gap_spacing : ℚ) :
    Option (List (ℚ × ℚ)) :=
  if total_length < gap_spacing then
    if 0 < max 0 (total_length / 2 - gap_length / 2) ∨
        min total_length (total_length / 2 + gap_length / 2) < total_length then
      some [(max 0 (total_length / 2 - gap_length / 2),
        min total_length (total_length / 2 + gap_length / 2))]
    else
      some []
  else
    gapLoopFuel total_length gap_length gap_spacing
      (gapFuel total_length gap_spacing gap_spacing) gap_spacing

/-- Contribution of one iteration of the segment construction loop of
`insert_gaps_in_path`: the sub-curve before the current gap, or nothing
when the range is degenerate, the crop raises, or the crop is empty. -/
def gapStep {C : Type} (ops : CurveOps C) (path : C)
    (total_length segment_start gap_start : ℚ) : List C :=
  if segment_start < gap_start then
    if clamp01 (segment_start / total_length) < clamp01 (gap_start / total_length) then
      match ops.cropped path (clamp01 (segment_start / total_length))
          (clamp01 (gap_start / total_length)) with
      | none => []
      | some seg => if 0 < ops.numPrims seg then [seg] else []
    else []
  else []

/-- The segment construction loop
`for gap_start, gap_end in gap_positions: ...; segment_start = gap_end`
of `insert_gaps_in_path`, with cursor `segment_start` and accumulator
`segments_out`; returns the final cursor and the accumulated segments. -/
def segLoop {C : Type} (ops : CurveOps C) (path : C) (total_length : ℚ) :
    List (ℚ × ℚ) → ℚ → List C → ℚ × List C
  | [], segment_start, acc => (segment_start, acc)
  | (gap_start, gap_end) :: rest, segment_start, acc =>
    segLoop ops path total_length rest gap_end
      (acc ++ gapStep ops path total_length segment_start gap_start)

/-- The trailing segment `[segment_start, total_length]` appended after the
loop of `insert_gaps_in_path` when `segment_start < total_length`. -/
def finalStep {C : Type} (ops : CurveOps C) (path : C)
    (total_length segment_start : ℚ) : List C :=
  if segment_start < total_length then
    if clamp01 (segment_start / total_length) < 1 then
      match ops.cropped path (clamp01 (segment_start / total_length)) 1 with
      | none => []
      | some seg => if 0 < ops.numPrims seg then [seg] else []
    else []
  else []

/-- All output segments built by `insert_gaps_in_path` from the recorded
gaps: the loop over the gaps followed by the trailing segment. -/
def segments_out {C : Type} (ops : CurveOps C) (path : C)
    (total_length : ℚ) (gaps : List (ℚ × ℚ)) : List C :=
  (segLoop ops path total_length gaps 0 []).2 ++
    finalStep ops path total_length (segLoop ops path total_length gaps 0 []).1

/-- Shallow embedding of `insert_gaps_in_path` from `vectorize_fast.py`:
early return `[]` for a path with no primitive, `[path]` for zero length,
gap placement, `[path]` when no gap was recorded, segment construction, and
the final fallback `segments_out if segments_out else [path]`.  The result
is `none` exactly when the placement loop diverges. -/
def insert_gaps_in_path {C : Type} (ops : CurveOps C) (path : C)
    (gap_length gap_spacing : ℚ) : Option (List C) :=
  if ops.numPrims path = 0 then some []
  else if ops.length path = 0 then some [path]
  else
    match gap_positions (ops.length path) gap_length gap_spacing with
    | none => none
    | some gaps =>
      if gaps = [] then some [path]
      else
        match segments_out ops path (ops.length path) gaps with
        | [] => some [path]
        | seg :: segs => some (seg :: segs)

/-- Ideal model of the curve capability: a curve is the arc-length interval
it occupies in an ambient parametrization; crops always succeed and preserve
arc length proportionally, exactly the capability the data model requires of
the geometry library. -/
def idealOps : CurveOps (ℚ × ℚ) where
  numPrims c := if c.1 < c.2 then 1 else 0
  length c := c.2 - c.1
  cropped c t0 t1 := some (c.1 + t0 * (c.2 - c.1), c.1 + t1 * (c.2 - c.1))

/-- A one-primitive curve whose every crop raises, exercising the
total-segmentation-failure fallback of `insert_gaps_in_path`. -/
def failOps : CurveOps Unit where
  numPrims _ := 1
  length _ := 5
  cropped _ _ _ := none

/-- A degenerate one-primitive curve of arc length zero. -/
def pointOps : CurveOps Unit where
  numPrims _ := 1
  length _ := 0
  cropped _ _ _ := some ()

/-- A rational is at most its numerator (as a natural) plus one; this makes
`gapFuel` an upper bound on the remaining iteration count. -/
theorem rat_le_num_toNat (x : ℚ) : x ≤ (x.num.toNat : ℚ) + 1 := by
  have h0 : (0 : ℚ) ≤ (x.num.toNat : ℚ) := by positivity
  rcases le_or_lt x 0 with h | h
  · linarith
  · have hnum : 0 < x.num := Rat.num_pos.mpr h
    have hden : (1 : ℚ) ≤ (x.den : ℚ) := by
      exact_mod_cast Nat.one_le_iff_ne_zero.mpr x.den_nz
    have hx : x = (x.num : ℚ) / (x.den : ℚ) := (Rat.num_div_den x).symm
    have hnn : (0 : ℚ) ≤ (x.num : ℚ) := by exact_mod_cast hnum.le
    have h1 : x ≤ (x.num : ℚ) := by
      conv_lhs => rw [hx]
      exact div_le_self hnn hden
    have h2 : (x.num.toNat : ℚ) = (x.num : ℚ) := by
      exact_mod_cast Int.toNat_of_nonneg hnum.le
    linarith

/-- With positive spacing, any fuel at least the remaining distance divided
by the spacing makes the placement loop finish. -/
theorem gapLoopFuel_some (total_length gap_length gap_spacing : ℚ)
    (hs : 0 < gap_spacing) :
    ∀ (fuel : Nat) (pos : ℚ),
      (total_length - pos) / gap_spacing ≤ (fuel : ℚ) →
      ∃ l, gapLoopFuel total_length gap_length gap_spacing fuel pos = some l := by
  intro fuel
  induction fuel with
  | zero =>
    intro pos h
    have h0 : (total_length - pos) / gap_spacing ≤ 0 := by exact_mod_cast h
    refine ⟨[], ?_⟩
    rw [gapLoopFuel, if_neg]
    intro hlt
    have h1 : 0 < (total_length - pos) / gap_spacing :=
      div_pos (by linarith) hs
    linarith
  | succ n ih =>
    intro pos h
    by_cases hlt : pos < total_length
    · have h2 : (total_length - (pos + gap_spacing)) / gap_spacing ≤ (n : ℚ) := by
        have e : total_length - (pos + gap_spacing) =
            (total_length - pos) - gap_spacing := by ring
        rw [e, sub_div, div_self (ne_of_gt hs)]
        push_cast at h
        linarith
      obtain ⟨l, hl⟩ := ih (pos + gap_spacing) h2
      refine ⟨(pos, min (pos + gap_length) total_length) :: l, ?_⟩
      rw [gapLoopFuel, if_pos hlt, hl]
      rfl
    · refine ⟨[], ?_⟩
      rw [gapLoopFuel, if_neg hlt]

/-- The computed fuel dominates the remaining distance over the spacing. -/
theorem gapFuel_le (total_length gap_spacing pos : ℚ) :
    (total_length - pos) / gap_spacing ≤ (gapFuel total_length gap_spacing pos : ℚ) := by
  unfold gapFuel
  push_cast
  exact rat_le_num_toNat _

/-- With nonpositive spacing the loop condition never becomes false: every
fuel is exhausted, i.e. the source loop diverges. -/
theorem gapLoopFuel_none (total_length gap_length gap_spacing : ℚ)
    (hs : gap_spacing ≤ 0) :
    ∀ (fuel : Nat) (pos : ℚ), pos < total_length →
      gapLoopFuel total_length gap_length gap_spacing fuel pos = none := by
  intro fuel
  induction fuel with
  | zero => intro pos h; rw [gapLoopFuel, if_pos h]
  | succ n ih =>
    intro pos h
    rw [gapLoopFuel, if_pos h, ih (pos + gap_spacing) (by linarith)]
    rfl

/-- With positive spacing the gap placement of `insert_gaps_in_path`
always terminates. -/
theorem gap_positions_isSome (total_length gap_length gap_spacing : ℚ)
    (hs : 0 < gap_spacing) :
    ∃ gps, gap_positions total_length gap_length gap_spacing = some gps := by
  unfold gap_positions
  split
  · split
    · exact ⟨_, rfl⟩
    · exact ⟨_, rfl⟩
  · exact gapLoopFuel_some total_length gap_length gap_spacing hs _ _
      (gapFuel_le total_length gap_spacing gap_spacing)

/-- Characterization of a finished placement loop run: the gaps are evenly
spaced from `pos`, each clipped to the path end, the loop stopped exactly
when the cursor reached `total_length`, and every recorded start is inside
the path. -/
theorem gapLoopFuel_char (total_length gap_length gap_spacing : ℚ) :
    ∀ (fuel : Nat) (pos : ℚ) (l : List (ℚ × ℚ)),
      gapLoopFuel total_length gap_length gap_spacing fuel pos = some l →
      (∀ i (h : i < l.length), l[i] =
        (pos + (i : ℚ) * gap_spacing,
          min (pos + (i : ℚ) * gap_spacing + gap_length) total_length)) ∧
      total_length ≤ pos + (l.length : ℚ) * gap_spacing ∧
      (∀ i : Nat, i < l.length → pos + (i : ℚ) * gap_spacing < total_length) := by
  intro fuel
  induction fuel with
  | zero =>
    intro pos l h
    rw [gapLoopFuel] at h
    by_cases hlt : pos < total_length
    · rw [if_pos hlt] at h
      exact absurd h (by simp)
    · rw [if_neg hlt] at h
      obtain rfl : ([] : List (ℚ × ℚ)) = l := Option.some.inj h
      refine ⟨by simp, ?_, by simp⟩
      simp only [List.length_nil, Nat.cast_zero, zero_mul, add_zero]
      linarith [not_lt.mp hlt]
  | succ n ih =>
    intro pos l h
    rw [gapLoopFuel] at h
    by_cases hlt : pos < total_length
    · rw [if_pos hlt] at h
      rcases Option.map_eq_some'.mp h with ⟨l', hl', hfl⟩
      subst hfl
      obtain ⟨ih1, ih2, ih3⟩ := ih (pos + gap_spacing) l' hl'
      refine ⟨?_, ?_, ?_⟩
      · intro i hi
        cases i with
        | zero => simp
        | succ j =>
          have hj : j < l'.length := by simpa using hi
          have e : pos + gap_spacing + (j : ℚ) * gap_spacing =
              pos + ((j : ℚ) + 1) * gap_spacing := by ring
          rw [List.getElem_cons_succ, ih1 j hj, e]
          norm_cast
      · have hlen : ((l'.length + 1 : Nat) : ℚ) = (l'.length : ℚ) + 1 := by
          push_cast; ring
        simp only [List.length_cons, hlen]
        have e : pos + ((l'.length : ℚ) + 1) * gap_spacing =
            pos + gap_spacing + (l'.length : ℚ) * gap_spacing := by ring
        rw [e]
        exact ih2
      · intro i hi
        cases i with
        | zero => simpa using hlt
        | succ j =>
          have hj : j < l'.length := by simpa using hi
          have := ih3 j hj
          have e : pos + gap_spacing + (j : ℚ) * gap_spacing =
              pos + ((j : ℚ) + 1) * gap_spacing := by ring
          rw [e] at this
          have ecast : ((j + 1 : Nat) : ℚ) = (j : ℚ) + 1 := by push_cast; ring
          rw [ecast]
          exact this
    · rw [if_neg hlt] at h
      obtain rfl : ([] : List (ℚ × ℚ)) = l := Option.some.inj h
      refine ⟨by simp, ?_, by simp⟩
      simp only [List.length_nil, Nat.cast_zero, zero_mul, add_zero]
      linarith [not_lt.mp hlt]

/-- Each loop iteration contributes at most one output segment. -/
theorem gapStep_length_le {C : Type} (ops : CurveOps C) (path : C)
    (total_length segment_start gap_start : ℚ) :
    (gapStep ops path total_length segment_start gap_start).length ≤ 1 := by
  unfold gapStep
  split
  · split
    · split
      · simp
      · split <;> simp
    · simp
  · simp

/-- The trailing segment contributes at most one output segment. -/
theorem finalStep_length_le {C : Type} (ops : CurveOps C) (path : C)
    (total_length segment_start : ℚ) :
    (finalStep ops path total_length segment_start).length ≤ 1 := by
  unfold finalStep
  split
  · split
    · split
      · simp
      · split <;> simp
    · simp
  · simp

/-- The segment loop only ever appends to its accumulator. -/
theorem segLoop_acc {C : Type} (ops : CurveOps C) (path : C) (total_length : ℚ) :
    ∀ (gaps : List (ℚ × ℚ)) (segment_start : ℚ) (acc : List C),
      segLoop ops path total_length gaps segment_start acc =
        ((segLoop ops path total_length gaps segment_start []).1,
          acc ++ (segLoop ops path total_length gaps segment_start []).2) := by
  intro gaps
  induction gaps with
  | nil => intro ss acc; simp [segLoop]
  | cons p rest ih =>
    intro ss acc
    obtain ⟨a, b⟩ := p
    rw [segLoop, segLoop,
      ih b (acc ++ gapStep ops path total_length ss a),
      ih b ([] ++ gapStep ops path total_length ss a)]
    simp

/-- The segment loop adds at most one segment per recorded gap. -/
theorem segLoop_length_le {C : Type} (ops : CurveOps C) (path : C) (total_length : ℚ) :
    ∀ (gaps : List (ℚ × ℚ)) (segment_start : ℚ) (acc : List C),
      (segLoop ops path total_length gaps segment_start acc).2.length ≤
        acc.length + gaps.length := by
  intro gaps
  induction gaps with
  | nil => intro ss acc; simp [segLoop]
  | cons p rest ih =>
    intro ss acc
    obtain ⟨a, b⟩ := p
    rw [segLoop]
    have h1 := ih b (acc ++ gapStep ops path total_length ss a)
    have h2 := gapStep_length_le ops path total_length ss a
    simp only [List.length_append] at h1
    simp only [List.length_cons]
    omega

/-- The number of output segments is at most the number of gaps plus one. -/
theorem segments_out_length_le {C : Type} (ops : CurveOps C) (path : C)
    (total_length : ℚ) (gaps : List (ℚ × ℚ)) :
    (segments_out ops path total_length gaps).length ≤ gaps.length + 1 := by
  unfold segments_out
  have h1 := segLoop_length_le ops path total_length gaps 0 []
  have h2 := finalStep_length_le ops path total_length
    (segLoop ops path total_length gaps 0 []).1
  simp only [List.length_nil, Nat.zero_add] at h1
  rw [List.length_append]
  omega

/-- Clamping is the identity on the unit interval. -/
theorem clamp01_eq_self (x : ℚ) (h0 : 0 ≤ x) (h1 : x ≤ 1) : clamp01 x = x := by
  unfold clamp01
  rw [min_eq_right h1, max_eq_right h0]

/-- Clamped parameters are nonnegative. -/
theorem clamp01_nonneg (x : ℚ) : 0 ≤ clamp01 x := le_max_left _ _

/-- Clamped parameters are at most one. -/
theorem clamp01_le_one (x : ℚ) : clamp01 x ≤ 1 := by
  unfold clamp01
  exact max_le (by norm_num) (min_le_left _ _)

/-- Cropping the ideal curve `(0, L)` yields the scaled interval. -/
theorem idealOps_cropped (L t0 t1 : ℚ) :
    idealOps.cropped (0, L) t0 t1 = some (t0 * L, t1 * L) := by
  simp [idealOps]

/-- In the ideal model a loop iteration emits exactly the interval between
the cursor and the gap start, when that range is nondegenerate. -/
theorem gapStep_ideal (L segment_start gap_start : ℚ) (hL : 0 < L)
    (h0 : 0 ≤ segment_start) (h1 : segment_start ≤ L)
    (h2 : 0 ≤ gap_start) (h3 : gap_start ≤ L) :
    gapStep idealOps (0, L) L segment_start gap_start =
      if segment_start < gap_start then [(segment_start, gap_start)] else [] := by
  have hLne : L ≠ 0 := ne_of_gt hL
  have hc0 : clamp01 (segment_start / L) = segment_start / L :=
    clamp01_eq_self _ (div_nonneg h0 hL.le) ((div_le_one hL).mpr h1)
  have hc1 : clamp01 (gap_start / L) = gap_start / L :=
    clamp01_eq_self _ (div_nonneg h2 hL.le) ((div_le_one hL).mpr h3)
  unfold gapStep
  rw [hc0, hc1]
  by_cases h : segment_start < gap_start
  · rw [if_pos h, if_pos h]
    have hdiv : segment_start / L < gap_start / L := by
      rw [div_lt_div_iff₀ hL hL]
      exact (mul_lt_mul_right hL).mpr h
    rw [if_pos hdiv]
    simp only [idealOps_cropped, div_mul_cancel₀ _ hLne]
    simp [idealOps, h]
  · rw [if_neg h, if_neg h]

/-- In the ideal model the trailing step emits exactly the interval between
the cursor and the path end, when that range is nondegenerate. -/
theorem finalStep_ideal (L segment_start : ℚ) (hL : 0 < L)
    (h0 : 0 ≤ segment_start) :
    finalStep idealOps (0, L) L segment_start =
      if segment_start < L then [(segment_start, L)] else [] := by
  have hLne : L ≠ 0 := ne_of_gt hL
  unfold finalStep
  by_cases h : segment_start < L
  · have hc0 : clamp01 (segment_start / L) = segment_start / L :=
      clamp01_eq_self _ (div_nonneg h0 hL.le) ((div_le_one hL).mpr h.le)
    rw [hc0, if_pos h, if_pos ((div_lt_one hL).mpr h)]
    simp only [idealOps_cropped, div_mul_cancel₀ _ hLne, one_mul]
    simp [idealOps, h]
  · rw [if_neg h, if_neg h]

/-- The recorded gaps are within the path, nondegenerate, and ordered:
starts strictly increase and ends never decrease. -/
theorem gap_positions_sound (total_length gap_length gap_spacing : ℚ)
    (hL : 0 < total_length) (hg : 0 < gap_length) (hs : 0 < gap_spacing)
    (gps : List (ℚ × ℚ))
    (h : gap_positions total_length gap_length gap_spacing = some gps) :
    (∀ p ∈ gps, 0 ≤ p.1 ∧ p.1 < p.2 ∧ p.2 ≤ total_length) ∧
    List.Pairwise (fun p q => p.1 < q.1 ∧ p.2 ≤ q.2) gps := by
  unfold gap_positions at h
  by_cases hb : total_length < gap_spacing
  · rw [if_pos hb] at h
    by_cases hc : 0 < max 0 (total_length / 2 - gap_length / 2) ∨
        min total_length (total_length / 2 + gap_length / 2) < total_length
    · rw [if_pos hc] at h
      obtain rfl := (Option.some.inj h).symm
      constructor
      · intro p hp
        rw [List.mem_singleton] at hp
        subst hp
        refine ⟨le_max_left _ _, ?_, min_le_left _ _⟩
        exact lt_min (max_lt hL (by linarith))
          (max_lt (by linarith) (by linarith))
      · simp
    · rw [if_neg hc] at h
      obtain rfl := (Option.some.inj h).symm
      exact ⟨by simp, by simp⟩
  · rw [if_neg hb] at h
    obtain ⟨hchar1, hchar2, hchar3⟩ :=
      gapLoopFuel_char total_length gap_length gap_spacing _ _ _ h
    constructor
    · intro p hp
      obtain ⟨i, hi, hpe⟩ := List.mem_iff_getElem.mp hp
      rw [hchar1 i hi] at hpe
      subst hpe
      dsimp only
      refine ⟨?_, ?_, min_le_right _ _⟩
      · have hnn : 0 ≤ (i : ℚ) * gap_spacing := by positivity
        linarith
      · exact lt_min (by linarith) (hchar3 i hi)
    · rw [List.pairwise_iff_getElem]
      intro i j hi hj hij
      rw [hchar1 i hi, hchar1 j hj]
      dsimp only
      have hij1 : (i : ℚ) < (j : ℚ) := by exact_mod_cast hij
      have hij2 : (i : ℚ) * gap_spacing < (j : ℚ) * gap_spacing :=
        mul_lt_mul_of_pos_right hij1 hs
      constructor
      · linarith
      · exact min_le_min (by linarith) le_rfl

/-- Main invariant of the segment construction loop in the ideal model.
Given ordered in-bounds gaps whose ends lie beyond the cursor, the loop
yields a cursor bounded by the path end and past every gap end, segments
that are nondegenerate, within `[segment_start, cursor]`, pairwise ordered
and disjoint, disjoint from every gap, and, together with the gaps,
covering everything between the initial and the final cursor. -/
theorem segLoop_ideal_spec (L : ℚ) (hL : 0 < L) :
    ∀ (gps : List (ℚ × ℚ)) (ss : ℚ),
      0 ≤ ss → ss ≤ L →
      (∀ p ∈ gps, 0 ≤ p.1 ∧ p.1 ≤ p.2 ∧ ss ≤ p.2 ∧ p.2 ≤ L) →
      List.Pairwise (fun p q => p.1 < q.1 ∧ p.2 ≤ q.2) gps →
      (ss ≤ (segLoop idealOps (0, L) L gps ss []).1 ∧
        (segLoop idealOps (0, L) L gps ss []).1 ≤ L) ∧
      (∀ p ∈ gps, p.2 ≤ (segLoop idealOps (0, L) L gps ss []).1) ∧
      (∀ q ∈ (segLoop idealOps (0, L) L gps ss []).2,
        ss ≤ q.1 ∧ q.1 < q.2 ∧ q.2 ≤ (segLoop idealOps (0, L) L gps ss []).1) ∧
      (∀ q ∈ (segLoop idealOps (0, L) L gps ss []).2, ∀ p ∈ gps,
        q.2 ≤ p.1 ∨ p.2 ≤ q.1) ∧
      List.Pairwise (fun q r => q.2 ≤ r.1) (segLoop idealOps (0, L) L gps ss []).2 ∧
      (∀ x : ℚ, ss ≤ x → x < (segLoop idealOps (0, L) L gps ss []).1 →
        (∃ q ∈ (segLoop idealOps (0, L) L gps ss []).2, q.1 ≤ x ∧ x < q.2) ∨
        (∃ p ∈ gps, p.1 ≤ x ∧ x < p.2)) := by
  intro gps
  induction gps with
  | nil =>
    intro ss h0 h1 hg hp
    simp only [segLoop]
    refine ⟨⟨le_refl ss, h1⟩, by simp, by simp, by simp, by simp, ?_⟩
    intro x hx1 hx2
    exact absurd (lt_of_le_of_lt hx1 hx2) (lt_irrefl ss)
  | cons p rest ih =>
    intro ss h0 h1 hg hp
    obtain ⟨a, b⟩ := p
    obtain ⟨ha0, hab, hsb, hbL⟩ := hg (a, b) (List.mem_cons_self _ _)
    have haL : a ≤ L := le_trans hab hbL
    have hb0 : 0 ≤ b := le_trans h0 hsb
    have hpc := List.pairwise_cons.mp hp
    have hrest : ∀ q ∈ rest, 0 ≤ q.1 ∧ q.1 ≤ q.2 ∧ b ≤ q.2 ∧ q.2 ≤ L := by
      intro q hq
      obtain ⟨h1q, h2q, _, h4q⟩ := hg q (List.mem_cons_of_mem _ hq)
      exact ⟨h1q, h2q, (hpc.1 q hq).2, h4q⟩
    obtain ⟨⟨i1a, i1b⟩, i2, i3, i4, i5, i6⟩ := ih b hb0 hbL hrest hpc.2
    have hstep : segLoop idealOps (0, L) L ((a, b) :: rest) ss [] =
        ((segLoop idealOps (0, L) L rest b []).1,
          gapStep idealOps (0, L) L ss a ++ (segLoop idealOps (0, L) L rest b []).2) := by
      rw [segLoop, List.nil_append, segLoop_acc]
    have hgs : gapStep idealOps (0, L) L ss a =
        if ss < a then [(ss, a)] else [] :=
      gapStep_ideal L ss a hL h0 h1 ha0 haL
    rw [hstep, hgs]
    by_cases hssa : ss < a
    · rw [if_pos hssa]
      simp only [List.singleton_append]
      refine ⟨⟨le_trans hsb i1a, i1b⟩, ?_, ?_, ?_, ?_, ?_⟩
      · intro q hq
        rcases List.mem_cons.mp hq with rfl | hq'
        · exact i1a
        · exact i2 q hq'
      · intro q hq
        rcases List.mem_cons.mp hq with rfl | hq'
        · exact ⟨le_refl ss, hssa, le_trans hab i1a⟩
        · obtain ⟨j1, j2, j3⟩ := i3 q hq'
          exact ⟨le_trans hsb j1, j2, j3⟩
      · intro q hq pg hpg
        rcases List.mem_cons.mp hq with rfl | hq'
        · rcases List.mem_cons.mp hpg with rfl | hp'
          · left; exact le_refl a
          · left; exact le_of_lt (hpc.1 pg hp').1
        · rcases List.mem_cons.mp hpg with rfl | hp'
          · right; exact (i3 q hq').1
          · exact i4 q hq' pg hp'
      · rw [List.pairwise_cons]
        refine ⟨?_, i5⟩
        intro q hq
        exact le_trans hab (i3 q hq).1
      · intro x hx1 hx2
        by_cases hxb : x < b
        · by_cases hxa : x < a
          · left
            exact ⟨(ss, a), List.mem_cons_self _ _, hx1, hxa⟩
          · right
            exact ⟨(a, b), List.mem_cons_self _ _, le_of_not_lt hxa, hxb⟩
        · rcases i6 x (le_of_not_lt hxb) hx2 with ⟨q, hq, hq1, hq2⟩ | ⟨pg, hpm, hp1, hp2⟩
          · left; exact ⟨q, List.mem_cons_of_mem _ hq, hq1, hq2⟩
          · right; exact ⟨pg, List.mem_cons_of_mem _ hpm, hp1, hp2⟩
    · rw [if_neg hssa]
      simp only [List.nil_append]
      have hassa : a ≤ ss := le_of_not_lt hssa
      refine ⟨⟨le_trans hsb i1a, i1b⟩, ?_, ?_, ?_, i5, ?_⟩
      · intro q hq
        rcases List.mem_cons.mp hq with rfl | hq'
        · exact i1a
        · exact i2 q hq'
      · intro q hq
        obtain ⟨j1, j2, j3⟩ := i3 q hq
        exact ⟨le_trans hsb j1, j2, j3⟩
      · intro q hq pg hpg
        rcases List.mem_cons.mp hpg with rfl | hp'
        · right; exact (i3 q hq).1
        · exact i4 q hq pg hp'
      · intro x hx1 hx2
        by_cases hxb : x < b
        · right
          exact ⟨(a, b), List.mem_cons_self _ _, le_trans hassa hx1, hxb⟩
        · rcases i6 x (le_of_not_lt hxb) hx2 with ⟨q, hq, hq1, hq2⟩ | ⟨pg, hpm, hp1, hp2⟩
          · left; exact ⟨q, hq, hq1, hq2⟩
          · right; exact ⟨pg, List.mem_cons_of_mem _ hpm, hp1, hp2⟩

/-- A nondegenerate path with no recorded gap is returned unchanged. -/
theorem insert_gaps_eval_no_gaps {C : Type} (ops : CurveOps C) (path : C)
    (g s : ℚ) (hnp : ¬ops.numPrims path = 0) (hlen : ¬ops.length path = 0)
    (hgps : gap_positions (ops.length path) g s = some []) :
    insert_gaps_in_path ops path g s = some [path] := by
  unfold insert_gaps_in_path
  rw [if_neg hnp, if_neg hlen, hgps]
  rfl

/-- When every built segment was dropped, the path is returned unchanged. -/
theorem insert_gaps_eval_fallback {C : Type} (ops : CurveOps C) (path : C)
    (g s : ℚ) (hnp : ¬ops.numPrims path = 0) (hlen : ¬ops.length path = 0)
    (gps : List (ℚ × ℚ)) (hgps : gap_positions (ops.length path) g s = some gps)
    (hnn : gps ≠ [])
    (hso : segments_out ops path (ops.length path) gps = []) :
    insert_gaps_in_path ops path g s = some [path] := by
  unfold insert_gaps_in_path
  rw [if_neg hnp, if_neg hlen, hgps]
  show (if gps = [] then some [path]
    else
      match segments_out ops path (ops.length path) gps with
      | [] => some [path]
      | seg :: segs => some (seg :: segs)) = some [path]
  rw [if_neg hnn, hso]

/-- When at least one built segment survives, exactly those segments are
returned. -/
theorem insert_gaps_eval_segments {C : Type} (ops : CurveOps C) (path : C)
    (g s : ℚ) (hnp : ¬ops.numPrims path = 0) (hlen : ¬ops.length path = 0)
    (gps : List (ℚ × ℚ)) (hgps : gap_positions (ops.length path) g s = some gps)
    (hnn : gps ≠ [])
    (hso : segments_out ops path (ops.length path) gps ≠ []) :
    insert_gaps_in_path ops path g s =
      some (segments_out ops path (ops.length path) gps) := by
  unfold insert_gaps_in_path
  rw [if_neg hnp, if_neg hlen, hgps]
  show (if gps = [] then some [path]
    else
      match segments_out ops path (ops.length path) gps with
      | [] => some [path]
      | seg :: segs => some (seg :: segs)) =
    some (segments_out ops path (ops.length path) gps)
  rw [if_neg hnn]
  cases hcase : segments_out ops path (ops.length path) gps with
  | nil => exact absurd hcase hso
  | cons a l => rfl

/-- When at least one gap was recorded, the ideal model always produces at
least one genuine segment, so the final fallback is not taken. -/
theorem segments_out_ideal_ne_nil (L g s : ℚ) (hL : 0 < L) (hg : 0 < g)
    (hs : 0 < s) (gps : List (ℚ × ℚ))
    (hgps : gap_positions L g s = some gps) (hnn : gps ≠ []) :
    segments_out idealOps (0, L) L gps ≠ [] := by
  obtain ⟨hbounds, _⟩ := gap_positions_sound L g s hL hg hs gps hgps
  unfold gap_positions at hgps
  by_cases hb : L < s
  · rw [if_pos hb] at hgps
    by_cases hc : 0 < max 0 (L / 2 - g / 2) ∨ min L (L / 2 + g / 2) < L
    · rw [if_pos hc] at hgps
      obtain rfl := (Option.some.inj hgps).symm
      have hgs0 : (0 : ℚ) ≤ max 0 (L / 2 - g / 2) := le_max_left _ _
      have hgsL : max 0 (L / 2 - g / 2) ≤ L := max_le hL.le (by linarith)
      have hge0 : (0 : ℚ) ≤ min L (L / 2 + g / 2) := le_min hL.le (by linarith)
      have hsl : segLoop idealOps (0, L) L
          [(max 0 (L / 2 - g / 2), min L (L / 2 + g / 2))] 0 [] =
          (min L (L / 2 + g / 2),
            [] ++ gapStep idealOps (0, L) L 0 (max 0 (L / 2 - g / 2))) := by
        rw [segLoop, segLoop]
      unfold segments_out
      rw [hsl]
      dsimp only
      rw [List.nil_append,
        gapStep_ideal L 0 _ hL (le_refl 0) hL.le hgs0 hgsL,
        finalStep_ideal L _ hL hge0]
      rcases hc with hc1 | hc2
      · rw [if_pos hc1]
        simp
      · rw [if_pos hc2]
        simp
    · rw [if_neg hc] at hgps
      obtain rfl := (Option.some.inj hgps).symm
      exact absurd rfl hnn
  · rw [if_neg hb] at hgps
    have hslL : s ≤ L := le_of_not_lt hb
    obtain ⟨hchar1, _, _⟩ := gapLoopFuel_char L g s _ _ _ hgps
    cases gps with
    | nil => exact absurd rfl hnn
    | cons p tail =>
      obtain ⟨a, b⟩ := p
      obtain ⟨ha, hb2⟩ : a = s ∧ b = min (s + g) L := by
        have h0 := hchar1 0 (by simp)
        simpa [Prod.ext_iff] using h0
      rw [ha, hb2]
      unfold segments_out
      have hstep : segLoop idealOps (0, L) L ((s, min (s + g) L) :: tail) 0 [] =
          ((segLoop idealOps (0, L) L tail (min (s + g) L) []).1,
            gapStep idealOps (0, L) L 0 s ++
              (segLoop idealOps (0, L) L tail (min (s + g) L) []).2) := by
        rw [segLoop, List.nil_append, segLoop_acc]
      rw [hstep]
      dsimp only
      rw [gapStep_ideal L 0 s hL (le_refl 0) hL.le hs.le hslL, if_pos hs]
      simp

/-- Claim C2: for every curve and positive gap parameters, in the ideal
model (every crop succeeds and preserves arc length proportionally) the
output segments of `insert_gaps_in_path` are pairwise disjoint and
ascending, each nondegenerate and inside the path, disjoint from every
recorded gap, and together with the recorded gaps they cover all of
`[0, total_length)`. -/
theorem output_partition (L g s : ℚ) (hL : 0 < L) (hg : 0 < g) (hs : 0 < s) :
    ∃ gps segs,
      gap_positions L g s = some gps ∧
      insert_gaps_in_path idealOps (0, L) g s = some segs ∧
      (∀ q ∈ segs, 0 ≤ q.1 ∧ q.1 < q.2 ∧ q.2 ≤ L) ∧
      List.Pairwise (fun q r => q.2 ≤ r.1) segs ∧
      (∀ q ∈ segs, ∀ p ∈ gps, q.2 ≤ p.1 ∨ p.2 ≤ q.1) ∧
      (∀ x : ℚ, 0 ≤ x → x < L →
        (∃ q ∈ segs, q.1 ≤ x ∧ x < q.2) ∨ (∃ p ∈ gps, p.1 ≤ x ∧ x < p.2)) := by
  obtain ⟨gps, hgps⟩ := gap_positions_isSome L g s hs
  have hlen0 : idealOps.length (0, L) = L := by simp [idealOps]
  have hnp : ¬idealOps.numPrims (0, L) = 0 := by simp [idealOps, hL]
  have hlenne : ¬idealOps.length (0, L) = 0 := by
    rw [hlen0]; exact ne_of_gt hL
  have hgps2 : gap_positions (idealOps.length (0, L)) g s = some gps := by
    rw [hlen0]; exact hgps
  by_cases hnil : gps = []
  · subst hnil
    have heval := insert_gaps_eval_no_gaps idealOps (0, L) g s hnp hlenne hgps2
    refine ⟨[], [(0, L)], hgps, heval, ?_, ?_, ?_, ?_⟩
    · intro q hq
      rw [List.mem_singleton] at hq
      subst hq
      exact ⟨le_refl 0, hL, le_refl L⟩
    · simp
    · intro q hq p hp
      exact absurd hp (List.not_mem_nil p)
    · intro x hx1 hx2
      left
      exact ⟨(0, L), List.mem_singleton.mpr rfl, hx1, hx2⟩
  · obtain ⟨hbounds, hpair⟩ := gap_positions_sound L g s hL hg hs gps hgps
    have hgm : ∀ p ∈ gps, 0 ≤ p.1 ∧ p.1 ≤ p.2 ∧ (0 : ℚ) ≤ p.2 ∧ p.2 ≤ L := by
      intro p hp
      obtain ⟨h1, h2, h3⟩ := hbounds p hp
      exact ⟨h1, h2.le, le_trans h1 h2.le, h3⟩
    obtain ⟨⟨m1a, m1b⟩, m2, m3, m4, m5, m6⟩ :=
      segLoop_ideal_spec L hL gps 0 (le_refl 0) hL.le hgm hpair
    have hne := segments_out_ideal_ne_nil L g s hL hg hs gps hgps hnil
    have hso2 : segments_out idealOps (0, L) (idealOps.length (0, L)) gps ≠ [] := by
      rw [hlen0]; exact hne
    have heval := insert_gaps_eval_segments idealOps (0, L) g s hnp hlenne
      gps hgps2 hnil hso2
    rw [hlen0] at heval
    have hfs := finalStep_ideal L (segLoop idealOps (0, L) L gps 0 []).1 hL m1a
    have hso : segments_out idealOps (0, L) L gps =
        (segLoop idealOps (0, L) L gps 0 []).2 ++
          (if (segLoop idealOps (0, L) L gps 0 []).1 < L
            then [((segLoop idealOps (0, L) L gps 0 []).1, L)] else []) := by
      unfold segments_out
      rw [hfs]
    refine ⟨gps, segments_out idealOps (0, L) L gps, hgps, heval, ?_, ?_, ?_, ?_⟩
    · rw [hso]
      intro q hq
      rcases List.mem_append.mp hq with hq2 | hq2
      · obtain ⟨j1, j2, j3⟩ := m3 q hq2
        exact ⟨j1, j2, le_trans j3 m1b⟩
      · by_cases hr1 : (segLoop idealOps (0, L) L gps 0 []).1 < L
        · rw [if_pos hr1, List.mem_singleton] at hq2
          subst hq2
          exact ⟨m1a, hr1, le_refl L⟩
        · rw [if_neg hr1] at hq2
          exact absurd hq2 (List.not_mem_nil q)
    · rw [hso, List.pairwise_append]
      refine ⟨m5, ?_, ?_⟩
      · by_cases hr1 : (segLoop idealOps (0, L) L gps 0 []).1 < L
        · rw [if_pos hr1]; simp
        · rw [if_neg hr1]; simp
      · intro q hq q2 hq2
        by_cases hr1 : (segLoop idealOps (0, L) L gps 0 []).1 < L
        · rw [if_pos hr1, List.mem_singleton] at hq2
          subst hq2
          exact (m3 q hq).2.2
        · rw [if_neg hr1] at hq2
          exact absurd hq2 (List.not_mem_nil q2)
    · rw [hso]
      intro q hq p hp
      rcases List.mem_append.mp hq with hq2 | hq2
      · exact m4 q hq2 p hp
      · by_cases hr1 : (segLoop idealOps (0, L) L gps 0 []).1 < L
        · rw [if_pos hr1, List.mem_singleton] at hq2
          subst hq2
          right
          exact m2 p hp
        · rw [if_neg hr1] at hq2
          exact absurd hq2 (List.not_mem_nil q)
    · rw [hso]
      intro x hx1 hx2
      by_cases hxr : x < (segLoop idealOps (0, L) L gps 0 []).1
      · rcases m6 x hx1 hxr with ⟨q, hq, h1, h2⟩ | hgap
        · left
          exact ⟨q, List.mem_append_left _ hq, h1, h2⟩
        · right
          exact hgap
      · have hr1 : (segLoop idealOps (0, L) L gps 0 []).1 < L :=
          lt_of_le_of_lt (le_of_not_lt hxr) hx2
        left
        refine ⟨((segLoop idealOps (0, L) L gps 0 []).1, L), ?_,
          le_of_not_lt hxr, hx2⟩
        rw [if_pos hr1]
        exact List.mem_append_right _ (List.mem_singleton.mpr rfl)

/-- Witness for C2 at the concrete instance of Scenario A. -/
theorem output_partition_witness :
    ∃ gps segs,
      gap_positions 100 3 40 = some gps ∧
      insert_gaps_in_path idealOps (0, 100) 3 40 = some segs ∧
      (∀ q ∈ segs, 0 ≤ q.1 ∧ q.1 < q.2 ∧ q.2 ≤ 100) ∧
      List.Pairwise (fun q r => q.2 ≤ r.1) segs ∧
      (∀ q ∈ segs, ∀ p ∈ gps, q.2 ≤ p.1 ∨ p.2 ≤ q.1) ∧
      (∀ x : ℚ, 0 ≤ x → x < 100 →
        (∃ q ∈ segs, q.1 ≤ x ∧ x < q.2) ∨ (∃ p ∈ gps, p.1 ≤ x ∧ x < p.2)) :=
  output_partition 100 3 40 (by decide) (by decide) (by decide)

/-- Claim C1 counterexample: for total_length 80, gap_spacing 40 (which
divides 80) and gap_length 3, the code records exactly one gap, while
`floor(total_length / gap_spacing)` is 2. -/
theorem gap_count_floor_counterexample :
    gap_positions 80 3 40 = some [(40, 43)] ∧
    ⌊(80 : ℚ) / 40⌋ = 2 ∧ [((40 : ℚ), (43 : ℚ))].length = 1 := by
  refine ⟨?_, ?_, rfl⟩
  · norm_num [gap_positions, gapFuel, gapLoopFuel]
  · norm_num

/-- Claim C1 (amended): for total_length ≥ gap_spacing and positive
parameters, `insert_gaps_in_path` records exactly `⌈L/s⌉ - 1` gaps (this
equals `⌊L/s⌋` whenever the spacing does not divide the length exactly,
and `⌊L/s⌋ - 1` when it does), evenly spaced at positive multiples of the
spacing and clipped to the path end, and for any curve of that length the
number of output segments is at most the gap count plus one. -/
theorem gap_count_and_segment_bound (L g s : ℚ) (hg : 0 < g) (hs : 0 < s)
    (hsL : s ≤ L) :
    ∃ gps, gap_positions L g s = some gps ∧
      (gps.length : ℤ) = ⌈L / s⌉ - 1 ∧
      (∀ i (h : i < gps.length), gps[i] =
        (((i : ℚ) + 1) * s, min (((i : ℚ) + 1) * s + g) L)) ∧
      (∀ (C : Type) (ops : CurveOps C) (path : C) (segs : List C),
        ops.length path = L →
        insert_gaps_in_path ops path g s = some segs →
        segs.length ≤ gps.length + 1) := by
  obtain ⟨gps, hgp0⟩ := gap_positions_isSome L g s hs
  have hb : ¬L < s := not_lt.mpr hsL
  have hgps := hgp0
  unfold gap_positions at hgps
  rw [if_neg hb] at hgps
  obtain ⟨hchar1, hchar2, hchar3⟩ := gapLoopFuel_char L g s _ _ _ hgps
  have h2 : (gps.length : ℚ) * s < L := by
    cases Nat.eq_zero_or_pos gps.length with
    | inl h0 =>
      rw [h0]
      push_cast
      nlinarith
    | inr hpos =>
      have hlast := hchar3 (gps.length - 1) (by omega)
      have hcast : ((gps.length - 1 : Nat) : ℚ) = (gps.length : ℚ) - 1 := by
        rw [Nat.cast_sub hpos]
        push_cast
        ring
      rw [hcast] at hlast
      have e : s + ((gps.length : ℚ) - 1) * s = (gps.length : ℚ) * s := by ring
      rw [e] at hlast
      exact hlast
  have hceil : ⌈L / s⌉ = (gps.length : ℤ) + 1 := by
    rw [Int.ceil_eq_iff]
    constructor
    · have hlt : (gps.length : ℚ) < L / s := (lt_div_iff₀ hs).mpr h2
      push_cast
      linarith
    · have hle : L / s ≤ (gps.length : ℚ) + 1 := by
        rw [div_le_iff₀ hs]
        have e : ((gps.length : ℚ) + 1) * s = s + (gps.length : ℚ) * s := by ring
        rw [e]
        exact hchar2
      push_cast
      linarith
  refine ⟨gps, hgp0, by rw [hceil]; ring, ?_, ?_⟩
  · intro i hi
    have e : s + (i : ℚ) * s = ((i : ℚ) + 1) * s := by ring
    rw [hchar1 i hi, e]
  · intro D ops path segs hlen hins
    have hl1 : ¬ops.length path = 0 := by
      rw [hlen]
      exact ne_of_gt (lt_of_lt_of_le hs hsL)
    unfold insert_gaps_in_path at hins
    by_cases h0 : ops.numPrims path = 0
    · rw [if_pos h0] at hins
      obtain rfl := (Option.some.inj hins).symm
      simp
    · rw [if_neg h0, if_neg hl1, hlen, hgp0] at hins
      split at hins
      · rename_i heq
        exact absurd heq (by simp)
      · rename_i gaps heq
        obtain rfl := Option.some.inj heq
        by_cases hnil : gps = []
        · rw [if_pos hnil] at hins
          obtain rfl := (Option.some.inj hins).symm
          simp
        · rw [if_neg hnil] at hins
          split at hins
          · obtain rfl := (Option.some.inj hins).symm
            simp
          · rename_i a l hcons
            obtain rfl := (Option.some.inj hins).symm
            rw [← hcons]
            exact segments_out_length_le ops path L gps

/-- Witness for C1 (amended) at total_length 100, spacing 40, length 3. -/
theorem gap_count_and_segment_bound_witness :
    ∃ gps, gap_positions 100 3 40 = some gps ∧
      (gps.length : ℤ) = ⌈(100 : ℚ) / 40⌉ - 1 ∧
      (∀ i (h : i < gps.length), gps[i] =
        (((i : ℚ) + 1) * 40, min (((i : ℚ) + 1) * 40 + 3) 100)) ∧
      (∀ (C : Type) (ops : CurveOps C) (path : C) (segs : List C),
        ops.length path = 100 →
        insert_gaps_in_path ops path 3 40 = some segs →
        segs.length ≤ gps.length + 1) :=
  gap_count_and_segment_bound 100 3 40 (by decide) (by decide) (by decide)

/-- Claim C3 (Scenario A): a curve of arc length 100 with spacing 40 and
gap length 3 records exactly the gaps `[40,43)` and `[80,83)` and, in the
ideal model, returns exactly three segments of lengths 40, 37 and 17. -/
theorem scenario_A_segments :
    gap_positions 100 3 40 = some [(40, 43), (80, 83)] ∧
    insert_gaps_in_path idealOps (0, 100) 3 40 =
      some [(0, 40), (43, 80), (83, 100)] ∧
    List.map (fun q : ℚ × ℚ => q.2 - q.1) [(0, 40), (43, 80), (83, 100)] =
      [40, 37, 17] := by
  refine ⟨?_, ?_, ?_⟩
  · norm_num [gap_positions, gapFuel, gapLoopFuel]
  · norm_num [insert_gaps_in_path, idealOps, gap_positions, gapFuel,
      gapLoopFuel, segments_out, segLoop, gapStep, finalStep, clamp01]
    all_goals simp
  · norm_num

/-- Claim C4: for a curve shorter than the spacing with
`gap_length < total_length`, exactly one gap of width `gap_length` is
placed, centered at `total_length / 2`, and in the ideal model the result
is two segments whose combined arc length is `total_length - gap_length`. -/
theorem short_path_centered_gap (L g s : ℚ) (hL : 0 < L) (hLs : L < s)
    (hg : 0 < g) (hgL : g < L) :
    gap_positions L g s = some [((L - g) / 2, (L + g) / 2)] ∧
    insert_gaps_in_path idealOps (0, L) g s =
      some [(0, (L - g) / 2), ((L + g) / 2, L)] ∧
    ((L - g) / 2 - 0) + (L - (L + g) / 2) = L - g := by
  have e1 : L / 2 - g / 2 = (L - g) / 2 := by ring
  have e2 : L / 2 + g / 2 = (L + g) / 2 := by ring
  have hgspos : 0 < (L - g) / 2 := by linarith
  have hgeL : (L + g) / 2 < L := by linarith
  have hgs : max 0 (L / 2 - g / 2) = (L - g) / 2 := by
    rw [e1]
    exact max_eq_right hgspos.le
  have hge : min L (L / 2 + g / 2) = (L + g) / 2 := by
    rw [e2]
    exact min_eq_right hgeL.le
  have hgp : gap_positions L g s = some [((L - g) / 2, (L + g) / 2)] := by
    unfold gap_positions
    rw [if_pos hLs, hgs, hge, if_pos (Or.inl hgspos)]
  refine ⟨hgp, ?_, by ring⟩
  have hlen0 : idealOps.length (0, L) = L := by simp [idealOps]
  have hnp : ¬idealOps.numPrims (0, L) = 0 := by simp [idealOps, hL]
  have hlenne : ¬idealOps.length (0, L) = 0 := by
    rw [hlen0]; exact ne_of_gt hL
  have hgp2 : gap_positions (idealOps.length (0, L)) g s =
      some [((L - g) / 2, (L + g) / 2)] := by
    rw [hlen0]; exact hgp
  have hsl : segLoop idealOps (0, L) L [((L - g) / 2, (L + g) / 2)] 0 [] =
      ((L + g) / 2, [] ++ gapStep idealOps (0, L) L 0 ((L - g) / 2)) := by
    rw [segLoop, segLoop]
  have hso : segments_out idealOps (0, L) L [((L - g) / 2, (L + g) / 2)] =
      [(0, (L - g) / 2), ((L + g) / 2, L)] := by
    unfold segments_out
    rw [hsl]
    dsimp only
    rw [List.nil_append,
      gapStep_ideal L 0 ((L - g) / 2) hL (le_refl 0) hL.le hgspos.le
        (by linarith),
      finalStep_ideal L ((L + g) / 2) hL (by linarith),
      if_pos hgspos, if_pos hgeL]
    rfl
  have hso2 : segments_out idealOps (0, L) (idealOps.length (0, L))
      [((L - g) / 2, (L + g) / 2)] ≠ [] := by
    rw [hlen0, hso]
    simp
  have heval := insert_gaps_eval_segments idealOps (0, L) g s hnp hlenne
    _ hgp2 (by simp) hso2
  rw [hlen0, hso] at heval
  exact heval

/-- Witness for C4 at Scenario B: length 20, spacing 40, gap length 3. -/
theorem short_path_centered_gap_witness :
    gap_positions 20 3 40 = some [((20 - 3) / 2, (20 + 3) / 2)] ∧
    insert_gaps_in_path idealOps (0, 20) 3 40 =
      some [(0, (20 - 3) / 2), ((20 + 3) / 2, 20)] ∧
    (((20 : ℚ) - 3) / 2 - 0) + (20 - (20 + 3) / 2) = 20 - 3 :=
  short_path_centered_gap 20 3 40 (by decide) (by decide) (by decide) (by decide)

/-- A loop iteration emits nothing when every successful crop of the path
is an empty curve (in particular when every crop raises). -/
theorem gapStep_all_fail {C : Type} (ops : CurveOps C) (path : C)
    (hf : ∀ t0 t1 c, ops.cropped path t0 t1 = some c → ops.numPrims c = 0)
    (total_length segment_start gap_start : ℚ) :
    gapStep ops path total_length segment_start gap_start = [] := by
  unfold gapStep
  split
  · split
    · split
      · rfl
      · rename_i seg heq
        rw [hf _ _ seg heq]
        norm_num
    · rfl
  · rfl

/-- The trailing step emits nothing when every successful crop of the path
is an empty curve. -/
theorem finalStep_all_fail {C : Type} (ops : CurveOps C) (path : C)
    (hf : ∀ t0 t1 c, ops.cropped path t0 t1 = some c → ops.numPrims c = 0)
    (total_length segment_start : ℚ) :
    finalStep ops path total_length segment_start = [] := by
  unfold finalStep
  split
  · split
    · split
      · rfl
      · rename_i seg heq
        rw [hf _ _ seg heq]
        norm_num
    · rfl
  · rfl

/-- The segment loop only returns its accumulator when every successful
crop of the path is an empty curve. -/
theorem segLoop_all_fail {C : Type} (ops : CurveOps C) (path : C)
    (hf : ∀ t0 t1 c, ops.cropped path t0 t1 = some c → ops.numPrims c = 0)
    (total_length : ℚ) :
    ∀ (gaps : List (ℚ × ℚ)) (segment_start : ℚ) (acc : List C),
      (segLoop ops path total_length gaps segment_start acc).2 = acc := by
  intro gaps
  induction gaps with
  | nil => intro ss acc; rfl
  | cons p rest ih =>
    intro ss acc
    obtain ⟨a, b⟩ := p
    rw [segLoop, gapStep_all_fail ops path hf, List.append_nil]
    exact ih b acc

/-- No segment at all is built when every successful crop of the path is an
empty curve. -/
theorem segments_out_all_fail {C : Type} (ops : CurveOps C) (path : C)
    (hf : ∀ t0 t1 c, ops.cropped path t0 t1 = some c → ops.numPrims c = 0)
    (total_length : ℚ) (gaps : List (ℚ × ℚ)) :
    segments_out ops path total_length gaps = [] := by
  unfold segments_out
  rw [segLoop_all_fail ops path hf total_length gaps 0 [],
    finalStep_all_fail ops path hf, List.append_nil]

/-- Claim C5: for any curve with at least one primitive and positive arc
length, and positive spacing, the output of `insert_gaps_in_path` is a
list that is never empty; when no gap was recorded, or when every
attempted crop failed or produced an empty curve, the function returns
exactly `[path]` unchanged. -/
theorem output_never_empty {C : Type} (ops : CurveOps C) (path : C)
    (g s : ℚ) (hs : 0 < s) (hnp : ops.numPrims path ≠ 0)
    (hpos : 0 < ops.length path) :
    ∃ r, insert_gaps_in_path ops path g s = some r ∧ r ≠ [] ∧
      (gap_positions (ops.length path) g s = some [] → r = [path]) ∧
      ((∀ t0 t1 c, ops.cropped path t0 t1 = some c → ops.numPrims c = 0) →
        r = [path]) := by
  have hlne : ¬ops.length path = 0 := ne_of_gt hpos
  obtain ⟨gps, hgps⟩ := gap_positions_isSome (ops.length path) g s hs
  by_cases hnil : gps = []
  · subst hnil
    exact ⟨[path], insert_gaps_eval_no_gaps ops path g s hnp hlne hgps,
      by simp, fun _ => rfl, fun _ => rfl⟩
  · have hng : ¬gap_positions (ops.length path) g s = some [] := by
      rw [hgps]
      intro hemp
      exact hnil (Option.some.inj hemp)
    by_cases hso : segments_out ops path (ops.length path) gps = []
    · exact ⟨[path],
        insert_gaps_eval_fallback ops path g s hnp hlne gps hgps hnil hso,
        by simp, fun _ => rfl, fun _ => rfl⟩
    · refine ⟨segments_out ops path (ops.length path) gps,
        insert_gaps_eval_segments ops path g s hnp hlne gps hgps hnil hso,
        hso, fun hemp => absurd hemp hng, ?_⟩
      intro hf
      exact absurd (segments_out_all_fail ops path hf _ gps) hso

/-- Witness for C5 on the one-primitive curve whose every crop raises. -/
theorem output_never_empty_witness :
    ∃ r, insert_gaps_in_path failOps () 3 40 = some r ∧ r ≠ [] ∧
      (gap_positions (failOps.length ()) 3 40 = some [] → r = [()]) ∧
      ((∀ t0 t1 c, failOps.cropped () t0 t1 = some c →
        failOps.numPrims c = 0) → r = [()]) :=
  output_never_empty failOps () 3 40 (by decide) (by norm_num [failOps])
    (by norm_num [failOps])

/-- Claim C6 counterexample: with gap_length 5 greater than gap_spacing 2
on a path of length 10, the recorded gaps are ascending but NOT pairwise
non-overlapping: the first two gaps `(2,7)` and `(4,9)` overlap. -/
theorem gap_overlap_counterexample :
    gap_positions 10 5 2 = some [(2, 7), (4, 9), (6, 10), (8, 10)] ∧
    ¬ List.Pairwise (fun p q : ℚ × ℚ => p.2 ≤ q.1 ∨ q.2 ≤ p.1)
      [(2, 7), (4, 9), (6, 10), (8, 10)] := by
  constructor
  · norm_num [gap_positions, gapFuel, gapLoopFuel]
  · intro hpw
    have hrel := (List.pairwise_cons.mp hpw).1 (4, 9) (by simp)
    rcases hrel with h | h <;> norm_num at h

/-- Claim C6 (amended): the recorded gaps are always generated in strictly
ascending order of start; they are additionally pairwise non-overlapping
whenever `gap_length ≤ gap_spacing` (but can overlap when
`gap_length > gap_spacing`). -/
theorem gap_ordering (L g s : ℚ) (hg : 0 < g) (hs : 0 < s)
    (gps : List (ℚ × ℚ)) (h : gap_positions L g s = some gps) :
    List.Pairwise (fun p q => p.1 < q.1) gps ∧
    (g ≤ s → List.Pairwise (fun p q => p.2 ≤ q.1) gps) := by
  unfold gap_positions at h
  by_cases hb : L < s
  · rw [if_pos hb] at h
    by_cases hc : 0 < max 0 (L / 2 - g / 2) ∨
        min L (L / 2 + g / 2) < L
    · rw [if_pos hc] at h
      obtain rfl := (Option.some.inj h).symm
      exact ⟨by simp, fun _ => by simp⟩
    · rw [if_neg hc] at h
      obtain rfl := (Option.some.inj h).symm
      exact ⟨by simp, fun _ => by simp⟩
  · rw [if_neg hb] at h
    obtain ⟨hchar1, _, _⟩ := gapLoopFuel_char L g s _ _ _ h
    constructor
    · rw [List.pairwise_iff_getElem]
      intro i j hi hj hij
      rw [hchar1 i hi, hchar1 j hj]
      dsimp only
      have h1 : (i : ℚ) < (j : ℚ) := by exact_mod_cast hij
      have h2 := mul_lt_mul_of_pos_right h1 hs
      linarith
    · intro hgs
      rw [List.pairwise_iff_getElem]
      intro i j hi hj hij
      rw [hchar1 i hi, hchar1 j hj]
      dsimp only
      have h1 : (i : ℚ) + 1 ≤ (j : ℚ) := by
        have h0 : (i + 1 : ℕ) ≤ j := hij
        exact_mod_cast h0
      have h2 := mul_le_mul_of_nonneg_right h1 hs.le
      have e : ((i : ℚ) + 1) * s = (i : ℚ) * s + s := by ring
      rw [e] at h2
      calc min (s + (i : ℚ) * s + g) L ≤ s + (i : ℚ) * s + g :=
            min_le_left _ _
        _ ≤ s + (i : ℚ) * s + s := by linarith
        _ ≤ s + (j : ℚ) * s := by linarith

/-- Witness for C6 (amended) at total_length 100, spacing 40, length 3. -/
theorem gap_ordering_witness :
    List.Pairwise (fun p q : ℚ × ℚ => p.1 < q.1) [(40, 43), (80, 83)] ∧
    ((3 : ℚ) ≤ 40 →
      List.Pairwise (fun p q : ℚ × ℚ => p.2 ≤ q.1) [(40, 43), (80, 83)]) :=
  gap_ordering 100 3 40 (by decide) (by decide) [(40, 43), (80, 83)]
    (by norm_num [gap_positions, gapFuel, gapLoopFuel])

/-- Claim C7 (Scenario C): a curve whose total arc length equals the
spacing exactly records zero gaps, because the loop condition
`pos < total_length` is already false at `pos = gap_spacing`, and the
curve is returned unchanged. -/
theorem exact_spacing_unchanged {C : Type} (ops : CurveOps C) (path : C)
    (g s : ℚ) (hs : 0 < s) (hlen : ops.length path = s)
    (hnp : ops.numPrims path ≠ 0) :
    insert_gaps_in_path ops path g s = some [path] := by
  have hgp : gap_positions s g s = some [] := by
    unfold gap_positions
    rw [if_neg (lt_irrefl s)]
    cases hfe : gapFuel s s s with
    | zero => rw [gapLoopFuel, if_neg (lt_irrefl s)]
    | succ n => rw [gapLoopFuel, if_neg (lt_irrefl s)]
  exact insert_gaps_eval_no_gaps ops path g s hnp
    (by rw [hlen]; exact ne_of_gt hs) (by rw [hlen]; exact hgp)

/-- Witness for C7 on the ideal curve of length 40 with spacing 40. -/
theorem exact_spacing_unchanged_witness :
    insert_gaps_in_path idealOps (0, 40) 3 40 = some [(0, 40)] :=
  exact_spacing_unchanged idealOps (0, 40) 3 40 (by decide)
    (by norm_num [idealOps]) (by norm_num [idealOps])

/-- Every segment a loop iteration emits comes from a successful crop over
a nondegenerate clamped parameter range and is nonempty. -/
theorem gapStep_mem {C : Type} (ops : CurveOps C) (path : C)
    (total_length segment_start gap_start : ℚ) (c : C)
    (hc : c ∈ gapStep ops path total_length segment_start gap_start) :
    ∃ t0 t1, 0 ≤ t0 ∧ t0 < t1 ∧ t1 ≤ 1 ∧
      ops.cropped path t0 t1 = some c ∧ 0 < ops.numPrims c := by
  unfold gapStep at hc
  split at hc
  · split at hc
    · rename_i hlt
      split at hc
      · exact absurd hc (List.not_mem_nil c)
      · rename_i seg heq
        split at hc
        · rename_i hn
          rw [List.mem_singleton] at hc
          subst hc
          exact ⟨_, _, clamp01_nonneg _, hlt, clamp01_le_one _, heq, hn⟩
        · exact absurd hc (List.not_mem_nil c)
    · exact absurd hc (List.not_mem_nil c)
  · exact absurd hc (List.not_mem_nil c)

/-- The trailing segment, when emitted, comes from a successful crop over a
nondegenerate clamped parameter range ending at 1 and is nonempty. -/
theorem finalStep_mem {C : Type} (ops : CurveOps C) (path : C)
    (total_length segment_start : ℚ) (c : C)
    (hc : c ∈ finalStep ops path total_length segment_start) :
    ∃ t0 t1, 0 ≤ t0 ∧ t0 < t1 ∧ t1 ≤ 1 ∧
      ops.cropped path t0 t1 = some c ∧ 0 < ops.numPrims c := by
  unfold finalStep at hc
  split at hc
  · split at hc
    · rename_i hlt
      split at hc
      · exact absurd hc (List.not_mem_nil c)
      · rename_i seg heq
        split at hc
        · rename_i hn
          rw [List.mem_singleton] at hc
          subst hc
          exact ⟨_, 1, clamp01_nonneg _, hlt, le_refl 1, heq, hn⟩
        · exact absurd hc (List.not_mem_nil c)
    · exact absurd hc (List.not_mem_nil c)
  · exact absurd hc (List.not_mem_nil c)

/-- Every element the segment loop adds beyond its accumulator comes from a
successful nondegenerate crop. -/
theorem segLoop_mem {C : Type} (ops : CurveOps C) (path : C)
    (total_length : ℚ) :
    ∀ (gaps : List (ℚ × ℚ)) (segment_start : ℚ) (acc : List C) (c : C),
      c ∈ (segLoop ops path total_length gaps segment_start acc).2 →
      c ∈ acc ∨ ∃ t0 t1, 0 ≤ t0 ∧ t0 < t1 ∧ t1 ≤ 1 ∧
        ops.cropped path t0 t1 = some c ∧ 0 < ops.numPrims c := by
  intro gaps
  induction gaps with
  | nil =>
    intro ss acc c hc
    rw [segLoop] at hc
    exact Or.inl hc
  | cons p rest ih =>
    intro ss acc c hc
    obtain ⟨a, b⟩ := p
    rw [segLoop] at hc
    rcases ih b _ c hc with hmem | hex
    · rcases List.mem_append.mp hmem with h1 | h1
      · exact Or.inl h1
      · exact Or.inr (gapStep_mem ops path total_length ss a c h1)
    · exact Or.inr hex

/-- Claim C8: for every curve and positive spacing (gap length arbitrary,
including at least the spacing), `insert_gaps_in_path` returns a value to
its caller; the result is the empty list (no primitives), the unchanged
path (degenerate, gap-free or total-crop-failure cases), or a list in
which every segment arose from a successful crop over a nondegenerate
clamped range — degenerate ranges and failed crops are skipped, never
emitted. -/
theorem crop_failures_absorbed {C : Type} (ops : CurveOps C) (path : C)
    (g s : ℚ) (hs : 0 < s) :
    ∃ r, insert_gaps_in_path ops path g s = some r ∧
      (r = [] ∨ r = [path] ∨
        ∀ c ∈ r, ∃ t0 t1, 0 ≤ t0 ∧ t0 < t1 ∧ t1 ≤ 1 ∧
          ops.cropped path t0 t1 = some c ∧ 0 < ops.numPrims c) := by
  by_cases h0 : ops.numPrims path = 0
  · refine ⟨[], ?_, Or.inl rfl⟩
    unfold insert_gaps_in_path
    rw [if_pos h0]
  · by_cases h1 : ops.length path = 0
    · refine ⟨[path], ?_, Or.inr (Or.inl rfl)⟩
      unfold insert_gaps_in_path
      rw [if_neg h0, if_pos h1]
    · obtain ⟨gps, hgps⟩ := gap_positions_isSome (ops.length path) g s hs
      by_cases hnil : gps = []
      · subst hnil
        exact ⟨[path], insert_gaps_eval_no_gaps ops path g s h0 h1 hgps,
          Or.inr (Or.inl rfl)⟩
      · by_cases hso : segments_out ops path (ops.length path) gps = []
        · exact ⟨[path],
            insert_gaps_eval_fallback ops path g s h0 h1 gps hgps hnil hso,
            Or.inr (Or.inl rfl)⟩
        · refine ⟨segments_out ops path (ops.length path) gps,
            insert_gaps_eval_segments ops path g s h0 h1 gps hgps hnil hso,
            Or.inr (Or.inr ?_)⟩
          intro c hc
          unfold segments_out at hc
          rcases List.mem_append.mp hc with h2 | h2
          · rcases segLoop_mem ops path (ops.length path) gps 0 [] c h2 with
              habs | hex
            · exact absurd habs (List.not_mem_nil c)
            · exact hex
          · exact finalStep_mem ops path (ops.length path) _ c h2

/-- Witness for C8 on an ideal short curve with gap length 3 exceeding
nothing but exercising the centered-gap branch. -/
theorem crop_failures_absorbed_witness :
    ∃ r, insert_gaps_in_path idealOps (0, 10) 3 40 = some r ∧
      (r = [] ∨ r = [((0 : ℚ), (10 : ℚ))] ∨
        ∀ c ∈ r, ∃ t0 t1, 0 ≤ t0 ∧ t0 < t1 ∧ t1 ≤ 1 ∧
          idealOps.cropped (0, 10) t0 t1 = some c ∧
          0 < idealOps.numPrims c) :=
  crop_failures_absorbed idealOps (0, 10) 3 40 (by decide)

/-- Claim C9: a curve with zero primitives yields the empty list, and a
curve with primitives but zero arc length yields the unchanged path;
neither degenerate case fails. -/
theorem degenerate_inputs {C : Type} (ops : CurveOps C) (path : C)
    (g s : ℚ) :
    (ops.numPrims path = 0 → insert_gaps_in_path ops path g s = some []) ∧
    (ops.numPrims path ≠ 0 → ops.length path = 0 →
      insert_gaps_in_path ops path g s = some [path]) := by
  constructor
  · intro h0
    unfold insert_gaps_in_path
    rw [if_pos h0]
  · intro h0 h1
    unfold insert_gaps_in_path
    rw [if_neg h0, if_pos h1]

/-- Witness for C9 at an empty ideal curve and a zero-length point curve. -/
theorem degenerate_inputs_witness :
    insert_gaps_in_path idealOps (0, 0) 3 40 = some [] ∧
    insert_gaps_in_path pointOps () 3 40 = some [()] :=
  ⟨(degenerate_inputs idealOps (0, 0) 3 40).1 (by norm_num [idealOps]),
    (degenerate_inputs pointOps () 3 40).2 (by norm_num [pointOps])
      (by norm_num [pointOps])⟩

/-- Claim C10: with positive spacing the gap placement loop of
`insert_gaps_in_path` terminates (some fuel reaches the failed loop
condition), while nothing rules out nonpositive spacing, under which the
loop body is entered and never terminates (every fuel is exhausted). -/
theorem placement_loop_termination (L g s : ℚ) :
    (0 < s → ∃ gps, gap_positions L g s = some gps) ∧
    (s ≤ 0 → s < L → gap_positions L g s = none) := by
  constructor
  · intro hs
    exact gap_positions_isSome L g s hs
  · intro hs hsL
    unfold gap_positions
    rw [if_neg (not_lt.mpr hsL.le)]
    exact gapLoopFuel_none L g s hs _ s hsL

/-- Witness for C10 at spacing 2 (terminating) and spacing -1 (diverging). -/
theorem placement_loop_termination_witness :
    (∃ gps, gap_positions 10 3 2 = some gps) ∧
    gap_positions 10 3 (-1) = none :=
  ⟨(placement_loop_termination 10 3 2).1 (by decide),
    (placement_loop_termination 10 3 (-1)).2 (by decide) (by decide)⟩
